import Mathlib

/-!
The bounded ping log of nflogicmp.

A shallow embedding of `main.go`: the `Log` type with `Ping`, `WriteTo`,
`ReadFrom`, and the nflog callback `fn` that extracts the source address of a
captured packet.

Modelling choices.

* `map[string][]time.Time` is an association list.  Go iterates a map in an
  unspecified order, so one map is represented by any ordering of its entries:
  statements about a single call quantify over every ordering, and runs of
  several calls may reorder the entries between calls.  A nil map and an empty
  map are both the empty list (reads behave the same, and `Ping` allocates).
* `time.Time` is an integer instant; `Before` is `<`, the zero `time.Time{}` is `0`.
* `net.IP` is a list of bytes; `net.IP.String` is library code and is taken as a
  parameter `str`.
* `time.Now()` is the parameter `now`.
* A run-time panic or a loop that never ends is the result `none`.
* The mutex makes every method body one atomic step.
-/

namespace Nflogicmp

/-- An instant of `time.Time`. -/
abbrev Time := Int

/-- A `net.IP`: a slice of bytes. -/
abbrev IP := List Nat

/-- The contents of a `map[string][]time.Time`, in some iteration order. -/
abbrev Entries := List (String × List Time)

/-- The constant `LOG_MAX_ENTRIES` of the source. -/
def LOG_MAX_ENTRIES : Nat := 200

/-- The struct `Log` (the embedded mutex has no state of its own here). -/
structure Log where
  Data : Entries
deriving DecidableEq

/-- The addresses (keys) of a map, in iteration order. -/
def keys (d : Entries) : List String := d.map Prod.fst

/-- The map read `d[k]`: the stored slice, or the nil slice when `k` is absent. -/
def mapGet : Entries → String → List Time
  | [], _ => []
  | (k', v') :: rest, k => if k' = k then v' else mapGet rest k

/-- The builtin `delete(d, k)`. -/
def mapDelete : Entries → String → Entries
  | [], _ => []
  | (k', v') :: rest, k => if k' = k then mapDelete rest k else (k', v') :: mapDelete rest k

/-- The map write `d[k] = v`. -/
def mapSet : Entries → String → List Time → Entries
  | [], k, v => [(k, v)]
  | (k', v') :: rest, k, v => if k' = k then (k, v) :: rest else (k', v') :: mapSet rest k v

/-- The inner `for k, vs := range l.Data` of `Ping`, started with the current
`min_key` and `min_value`.  The element `vs[len(vs)-1]` does not exist for an
empty slice: the scan panics there. -/
def scanMin : Entries → String → Time → Option (String × Time)
  | [], min_key, min_value => some (min_key, min_value)
  | (k, vs) :: rest, min_key, min_value =>
    match vs.getLast? with
    | none => none
    | some last =>
      if min_key = "" ∨ last < min_value then scanMin rest k last
      else scanMin rest min_key min_value

/-- The loop `for len(l.Data) >= LOG_MAX_ENTRIES { ... delete(l.Data, min_key) }`,
run for at most `fuel` passes.  Every pass scans the entries that are left, in the
order in which they are listed; a map within the bound needs at most one pass. -/
def evictLoop (maxEntries : Nat) : Nat → Entries → Option Entries
  | 0, d => if d.length ≥ maxEntries then none else some d
  | fuel + 1, d =>
    if d.length ≥ maxEntries then
      match scanMin d "" 0 with
      | none => none
      | some (min_key, _) => evictLoop maxEntries fuel (mapDelete d min_key)
    else some d

/-- The loop `for len(slice) >= LOG_MAX_ENTRIES { slice = slice[1:] }`; the
re-slice `slice[1:]` of an empty slice panics. -/
def trimLoop (maxEntries : Nat) : List Time → Option (List Time)
  | [] => if 0 ≥ maxEntries then none else some []
  | x :: rest => if (x :: rest).length ≥ maxEntries then trimLoop maxEntries rest else some (x :: rest)

/-- The method `Log.Ping` with the bound `maxEntries` in place of the constant
`LOG_MAX_ENTRIES`, which the source uses both for the number of addresses and for
the depth of every sequence.  The eviction loop gets `len(l.Data) + 1` passes,
which `evictLoop_isSome` shows to be enough. -/
def Log.PingWith (maxEntries : Nat) (str : IP → String) (l : Log) (ip : IP) (now : Time) :
    Option Log :=
  match evictLoop maxEntries (l.Data.length + 1) l.Data with
  | none => none
  | some d =>
    match trimLoop maxEntries (mapGet d (str ip)) with
    | none => none
    | some slice => some { Data := mapSet d (str ip) (slice ++ [now]) }

/-- The method `Log.Ping` of the source. -/
def Log.Ping (str : IP → String) (l : Log) (ip : IP) (now : Time) : Option Log :=
  Log.PingWith LOG_MAX_ENTRIES str l ip now

/-- The method `Log.WriteTo`.  `Encode` stands for `json.NewEncoder(w).Encode`:
it gives the bytes written to `w` and the error returned. -/
def Log.WriteTo (Encode : Log → List Nat × Option String) (l : Log) :
    List Nat × Option String :=
  Encode l

/-- The method `Log.ReadFrom`.  `Decode r` stands for the error returned by
`json.NewDecoder(r).Decode(r)`: the value decoded into is the reader `r`
itself, so whatever the decoder stores goes to `r` and not to the log. -/
def Log.ReadFrom (Decode : List Nat → Option String) (l : Log) (r : List Nat) :
    Log × Option String :=
  let l1 : Log := { l with Data := [] }
  (l1, Decode r)

/-- The slice expression `p[lo:hi]`, which panics when the bounds are out of range. -/
def slice (p : List Nat) (lo hi : Nat) : Option (List Nat) :=
  if lo ≤ hi ∧ hi ≤ p.length then some ((p.drop lo).take (hi - lo)) else none

/-- The nflog callback `fn` of `main`, on the shared `ping_log`; the result
carries the log after the call and the returned int. -/
def fn (maxEntries : Nat) (str : IP → String) (ping_log : Log) (Payload : Option (List Nat))
    (now : Time) : Option (Log × Int) :=
  match Payload with
  | none => some (ping_log, 0)
  | some p =>
    if p.length < 24 then some (ping_log, 0)
    else
      match p[0]? with
      | none => none
      | some b0 =>
        if b0 &&& 0xf0 = 0x40 then
          match slice p 12 16 with
          | none => none
          | some ip => (Log.PingWith maxEntries str ping_log ip now).map (fun l => (l, 0))
        else if b0 &&& 0xf0 = 0x60 then
          match slice p 8 24 with
          | none => none
          | some ip => (Log.PingWith maxEntries str ping_log ip now).map (fun l => (l, 0))
        else some (ping_log, 0)

/-- The address extractor as the specification words it: nothing for an absent
payload or one shorter than 24 bytes, bytes [12,16) when the high four bits of
byte 0 are 4, bytes [8,24) when they are 6, nothing otherwise. -/
def sourceAddress : Option (List Nat) → Option IP
  | none => none
  | some p =>
    if p.length < 24 then none
    else if p.headD 0 / 16 = 4 then some ((p.drop 12).take 4)
    else if p.headD 0 / 16 = 6 then some ((p.drop 8).take 16)
    else none

/-- Dotted-decimal text of a four-byte address, as `net.IP.String` prints it;
other lengths are not printed by this stand-in. -/
def ipv4String : IP → String
  | [a, b, c, d] => toString a ++ "." ++ toString b ++ "." ++ toString c ++ "." ++ toString d
  | _ => "?"

/-- A log at capacity: the addresses 10.0.0.0 to 10.0.0.199, the `i`-th of them
seen once, at instant `i`. -/
def fullLog : Log :=
  { Data := (List.range LOG_MAX_ENTRIES).map (fun i => (ipv4String [10, 0, 0, i], [(i : Time)])) }

/-- The number written after the first seven characters of a text, which for
`10.0.0.i` is `i`. -/
def lastOctet (s : String) : Nat :=
  (s.data.drop 7).foldl (fun a c => a * 10 + (c.toNat - 48)) 0

/-- One address recorded `LOG_MAX_ENTRIES + 1` times, at the instants 0, 1, 2, ... -/
def oneAddressCalls : List (IP × Time) :=
  (List.range (LOG_MAX_ENTRIES + 1)).map (fun i => (([10, 0, 0, 1] : IP), (i : Time)))

/-- Two calls for the address 10.0.0.i, at the instants `2 * i` and `2 * i + 1`. -/
def pairCalls (i : Nat) : List (IP × Time) :=
  [([10, 0, 0, i], ((2 * i : Nat) : Time)), ([10, 0, 0, i], ((2 * i + 1 : Nat) : Time))]

/-- Each of the `LOG_MAX_ENTRIES` addresses 10.0.0.0 to 10.0.0.199 recorded twice,
one address after the other, at the instants 0, 1, 2, ... -/
def twoEachCalls : List (IP × Time) :=
  (List.range LOG_MAX_ENTRIES).flatMap pairCalls

/-- The entry of the address 10.0.0.i after its two calls of `pairCalls`. -/
def twiceEntry (i : Nat) : String × List Time :=
  (ipv4String [10, 0, 0, i], [((2 * i : Nat) : Time), ((2 * i + 1 : Nat) : Time)])

/-- The log after all calls of `twoEachCalls` but the last. -/
def nearlyDone : Log :=
  { Data := (List.range 199).map twiceEntry ++ [(ipv4String [10, 0, 0, 199], [398])] }

/-- Three calls for two addresses. -/
def threeCalls : List (IP × Time) :=
  [([10, 0, 0, 1], 1), ([10, 0, 0, 2], 2), ([10, 0, 0, 1], 3)]

/-- A captured IPv4 packet of 24 bytes with the source address 10.0.0.1. -/
def ipv4Packet : List Nat :=
  [0x45, 0, 0, 24, 0, 0, 0, 0, 64, 1, 0, 0, 10, 0, 0, 1, 10, 0, 0, 2, 8, 0, 0, 0]

/-- A sequence of `Ping` calls run one after the other (the mutex serialises them). -/
def pings (maxEntries : Nat) (str : IP → String) : Log → List (IP × Time) → Option Log
  | l, [] => some l
  | l, (ip, now) :: rest =>
    match Log.PingWith maxEntries str l ip now with
    | none => none
    | some l1 => pings maxEntries str l1 rest

/-- The log `l` is a possible state after the calls `calls`, made in that order on
the empty log.  Between calls the entries may be listed in any other order, since
the next `range` may visit them in any order. -/
inductive Run (maxEntries : Nat) (str : IP → String) : List (IP × Time) → Log → Prop
  | init : Run maxEntries str [] { Data := [] }
  | ping {calls : List (IP × Time)} {l l1 : Log} (ip : IP) (now : Time) :
      Run maxEntries str calls l → Log.PingWith maxEntries str l ip now = some l1 →
      Run maxEntries str (calls ++ [(ip, now)]) l1
  | reorder {calls : List (IP × Time)} {l : Log} {d : Entries} :
      Run maxEntries str calls l → l.Data.Perm d → Run maxEntries str calls { Data := d }

/-- A log that some finite sequence of `Ping` calls produces from the empty log. -/
def Reachable (maxEntries : Nat) (str : IP → String) (l : Log) : Prop :=
  ∃ calls, Run maxEntries str calls l

/-- The timestamps of the calls made for the address `k`, in call order. -/
def timesOf (str : IP → String) (k : String) (calls : List (IP × Time)) : List Time :=
  (calls.filter (fun c => decide (str c.1 = k))).map Prod.snd

/-- The addresses for which the calls were made. -/
def calledKeys (str : IP → String) (calls : List (IP × Time)) : List String :=
  calls.map (fun c => str c.1)

/-- A decoder that reports `io.EOF` on an empty input, as `encoding/json` does;
its answer on any other input plays no part here. -/
def decodeEOF : List Nat → Option String :=
  fun r => if r = [] then some "EOF" else none

/-! ## The map operations -/

theorem mem_mapDelete (d : Entries) (k : String) (e : String × List Time) :
    e ∈ mapDelete d k ↔ e ∈ d ∧ e.1 ≠ k := by
  induction d with
  | nil => simp [mapDelete]
  | cons hd tl ih =>
    obtain ⟨k1, v1⟩ := hd
    by_cases h : k1 = k
    · simp only [mapDelete, h, if_true, ih, List.mem_cons]
      constructor
      · rintro ⟨h1, h2⟩; exact ⟨Or.inr h1, h2⟩
      · rintro ⟨h1 | h1, h2⟩
        · exact absurd (by rw [h1]) h2
        · exact ⟨h1, h2⟩
    · simp only [mapDelete, h, if_false, List.mem_cons, ih]
      constructor
      · rintro (h1 | ⟨h1, h2⟩)
        · exact ⟨Or.inl h1, by rw [h1]; exact h⟩
        · exact ⟨Or.inr h1, h2⟩
      · rintro ⟨h1 | h1, h2⟩
        · exact Or.inl h1
        · exact Or.inr ⟨h1, h2⟩

theorem mem_keys_mapDelete (d : Entries) (k k1 : String) :
    k1 ∈ keys (mapDelete d k) ↔ k1 ∈ keys d ∧ k1 ≠ k := by
  simp only [keys, List.mem_map, mem_mapDelete]
  constructor
  · rintro ⟨e, ⟨h1, h2⟩, rfl⟩; exact ⟨⟨e, h1, rfl⟩, h2⟩
  · rintro ⟨⟨e, h1, rfl⟩, h2⟩; exact ⟨e, ⟨h1, h2⟩, rfl⟩

theorem mapDelete_sublist (d : Entries) (k : String) : (mapDelete d k).Sublist d := by
  induction d with
  | nil => simp [mapDelete]
  | cons hd tl ih =>
    obtain ⟨k1, v1⟩ := hd
    by_cases h : k1 = k
    · simp only [mapDelete, h, if_true]; exact ih.cons _
    · simp only [mapDelete, h, if_false]; exact ih.cons₂ _

theorem nodup_keys_mapDelete (d : Entries) (k : String) (h : (keys d).Nodup) :
    (keys (mapDelete d k)).Nodup :=
  List.Nodup.sublist ((mapDelete_sublist d k).map Prod.fst) h

theorem length_mapDelete_le (d : Entries) (k : String) : (mapDelete d k).length ≤ d.length :=
  (mapDelete_sublist d k).length_le

theorem length_mapDelete_lt (d : Entries) (k : String) (h : k ∈ keys d) :
    (mapDelete d k).length < d.length := by
  induction d with
  | nil => simp [keys] at h
  | cons hd tl ih =>
    obtain ⟨k1, v1⟩ := hd
    by_cases h1 : k1 = k
    · simp only [mapDelete, h1, if_true, List.length_cons]
      exact Nat.lt_succ_of_le (length_mapDelete_le tl k)
    · have h2 : k ∈ keys tl := by
        simp only [keys, List.map_cons, List.mem_cons] at h
        rcases h with h | h
        · exact absurd h.symm h1
        · exact h
      simp only [mapDelete, h1, if_false, List.length_cons]
      exact Nat.succ_lt_succ (ih h2)

theorem mapGet_mapDelete (d : Entries) (k k1 : String) :
    mapGet (mapDelete d k) k1 = if k1 = k then [] else mapGet d k1 := by
  induction d with
  | nil => simp [mapDelete, mapGet]
  | cons hd tl ih =>
    obtain ⟨k2, v2⟩ := hd
    by_cases h : k2 = k
    · subst h
      simp only [mapDelete, if_true, ih, mapGet]
      by_cases h1 : k1 = k2
      · simp [h1]
      · have h2 : ¬ k2 = k1 := fun h => h1 h.symm
        simp [h1, h2]
    · simp only [mapDelete, h, if_false, mapGet, ih]
      by_cases h1 : k2 = k1
      · subst h1; simp [h]
      · simp [h1]

theorem mem_keys_mapSet (d : Entries) (k k1 : String) (v : List Time) :
    k1 ∈ keys (mapSet d k v) ↔ k1 ∈ keys d ∨ k1 = k := by
  induction d with
  | nil => simp [mapSet, keys]
  | cons hd tl ih =>
    obtain ⟨k2, v2⟩ := hd
    by_cases h : k2 = k
    · subst h
      simp only [mapSet, if_true, keys, List.map_cons, List.mem_cons]
      tauto
    · simp only [keys, List.map_cons, List.mem_cons] at ih
      simp only [mapSet, h, if_false, keys, List.map_cons, List.mem_cons, ih]
      tauto

theorem mapGet_mapSet (d : Entries) (k k1 : String) (v : List Time) :
    mapGet (mapSet d k v) k1 = if k1 = k then v else mapGet d k1 := by
  induction d with
  | nil =>
    by_cases h : k = k1
    · subst h; simp [mapSet, mapGet]
    · have h2 : ¬ k1 = k := fun h3 => h h3.symm
      simp [mapSet, mapGet, h, h2]
  | cons hd tl ih =>
    obtain ⟨k2, v2⟩ := hd
    by_cases h : k2 = k
    · subst h
      by_cases h1 : k2 = k1
      · subst h1; simp [mapSet, mapGet]
      · have h2 : ¬ k1 = k2 := fun h3 => h1 h3.symm
        simp [mapSet, mapGet, h1, h2]
    · by_cases h1 : k2 = k1
      · subst h1; simp [mapSet, mapGet, h]
      · simp only [mapSet, h, if_false, mapGet, h1, ih]

theorem nodup_keys_mapSet (d : Entries) (k : String) (v : List Time) (h : (keys d).Nodup) :
    (keys (mapSet d k v)).Nodup := by
  induction d with
  | nil => simp [mapSet, keys]
  | cons hd tl ih =>
    obtain ⟨k2, v2⟩ := hd
    have h0 : k2 ∉ keys tl ∧ (keys tl).Nodup := by
      simpa [keys, List.nodup_cons] using h
    by_cases h1 : k2 = k
    · subst h1
      simpa [mapSet, keys, List.nodup_cons] using h
    · have h3 : (keys ((k2, v2) :: mapSet tl k v)) = k2 :: keys (mapSet tl k v) := rfl
      rw [mapSet, if_neg h1, h3, List.nodup_cons, mem_keys_mapSet]
      exact ⟨fun h4 => h4.elim h0.1 h1, ih h0.2⟩

theorem length_mapSet (d : Entries) (k : String) (v : List Time) :
    (mapSet d k v).length = if k ∈ keys d then d.length else d.length + 1 := by
  induction d with
  | nil => simp [mapSet, keys]
  | cons hd tl ih =>
    obtain ⟨k2, v2⟩ := hd
    by_cases h1 : k2 = k
    · subst h1; simp [mapSet, keys]
    · have h2 : ¬ k = k2 := fun h => h1 h.symm
      have h3 : (k ∈ keys ((k2, v2) :: tl)) ↔ k ∈ keys tl := by
        simp [keys, h2]
      simp only [mapSet, h1, if_false, List.length_cons, ih, h3]
      split <;> rfl

theorem mem_mapSet (d : Entries) (k : String) (v : List Time) (e : String × List Time)
    (h : e ∈ mapSet d k v) : e = (k, v) ∨ e ∈ d := by
  induction d with
  | nil => simpa [mapSet] using h
  | cons hd tl ih =>
    obtain ⟨k2, v2⟩ := hd
    by_cases h1 : k2 = k
    · simp only [mapSet, h1, if_true, List.mem_cons] at h
      rcases h with h | h
      · exact Or.inl h
      · exact Or.inr (List.mem_cons_of_mem _ h)
    · simp only [mapSet, h1, if_false, List.mem_cons] at h
      rcases h with h | h
      · exact Or.inr (by rw [h]; exact List.mem_cons_self _ _)
      · rcases ih h with h2 | h2
        · exact Or.inl h2
        · exact Or.inr (List.mem_cons_of_mem _ h2)

theorem mapGet_of_mem (d : Entries) (k : String) (v : List Time) (hnd : (keys d).Nodup)
    (h : (k, v) ∈ d) : mapGet d k = v := by
  induction d with
  | nil => simp at h
  | cons hd tl ih =>
    obtain ⟨k2, v2⟩ := hd
    have h0 : k2 ∉ keys tl ∧ (keys tl).Nodup := by
      simpa [keys, List.nodup_cons] using hnd
    simp only [List.mem_cons, Prod.mk.injEq] at h
    rcases h with ⟨h1, h2⟩ | h
    · subst h1; subst h2; simp [mapGet]
    · have h3 : k2 ≠ k := by
        intro h4
        apply h0.1
        rw [h4]
        exact List.mem_map.2 ⟨(k, v), h, rfl⟩
      simp only [mapGet, h3, if_false]
      exact ih h0.2 h

theorem mapGet_of_not_mem (d : Entries) (k : String) (h : k ∉ keys d) : mapGet d k = [] := by
  induction d with
  | nil => rfl
  | cons hd tl ih =>
    obtain ⟨k2, v2⟩ := hd
    have h0 : ¬ k = k2 ∧ k ∉ keys tl := by
      simpa [keys, not_or] using h
    have h1 : ¬ k2 = k := fun h2 => h0.1 h2.symm
    simp only [mapGet, h1, if_false]
    exact ih h0.2

theorem mem_of_mem_keys (d : Entries) (k : String) (h : k ∈ keys d) : (k, mapGet d k) ∈ d := by
  induction d with
  | nil => simp [keys] at h
  | cons hd tl ih =>
    obtain ⟨k2, v2⟩ := hd
    by_cases h1 : k2 = k
    · subst h1; simp [mapGet]
    · have h2 : k ∈ keys tl := by
        simp only [keys, List.map_cons, List.mem_cons] at h
        rcases h with h | h
        · exact absurd h.symm h1
        · exact h
      simp only [mapGet, h1, if_false]
      exact List.mem_cons_of_mem _ (ih h2)

theorem mem_keys_of_mem (d : Entries) (e : String × List Time) (h : e ∈ d) : e.1 ∈ keys d :=
  List.mem_map.2 ⟨e, h, rfl⟩

theorem mapGet_perm (d d1 : Entries) (k : String) (hnd : (keys d).Nodup) (hp : d.Perm d1) :
    mapGet d k = mapGet d1 k := by
  have hk : (keys d).Perm (keys d1) := hp.map Prod.fst
  have hnd1 : (keys d1).Nodup := hk.nodup_iff.1 hnd
  by_cases h : k ∈ keys d
  · have h1 := mem_of_mem_keys d k h
    exact (mapGet_of_mem d1 k _ hnd1 (hp.mem_iff.1 h1)).symm
  · have h1 : k ∉ keys d1 := fun h2 => h (hk.mem_iff.2 h2)
    rw [mapGet_of_not_mem d k h, mapGet_of_not_mem d1 k h1]

/-! ## The eviction scan -/

theorem scanMin_isSome (d : Entries) (hne : ∀ e ∈ d, e.2 ≠ []) (mk : String) (mv : Time) :
    ∃ r, scanMin d mk mv = some r := by
  induction d generalizing mk mv with
  | nil => exact ⟨_, rfl⟩
  | cons hd tl ih =>
    obtain ⟨k, vs⟩ := hd
    have ih1 := ih (fun e he => hne e (List.mem_cons_of_mem _ he))
    cases hl : vs.getLast? with
    | none =>
      exact absurd (List.getLast?_eq_none_iff.1 hl) (hne (k, vs) (List.mem_cons_self _ _))
    | some last =>
      simp only [scanMin, hl]
      split
      · exact ih1 _ _
      · exact ih1 _ _

theorem scanMin_mem (d : Entries) (mk k : String) (mv v : Time)
    (h : scanMin d mk mv = some (k, v)) :
    (k = mk ∧ v = mv) ∨ ∃ vs, (k, vs) ∈ d ∧ vs.getLast? = some v := by
  induction d generalizing mk mv with
  | nil =>
    simp only [scanMin, Option.some.injEq, Prod.mk.injEq] at h
    exact Or.inl ⟨h.1.symm, h.2.symm⟩
  | cons hd tl ih =>
    obtain ⟨k0, vs0⟩ := hd
    cases hl : vs0.getLast? with
    | none => simp [scanMin, hl] at h
    | some last =>
      simp only [scanMin, hl] at h
      split at h
      · rcases ih _ _ h with ⟨h1, h2⟩ | ⟨vs, h1, h2⟩
        · refine Or.inr ⟨vs0, ?_, ?_⟩
          · rw [h1]; exact List.mem_cons_self _ _
          · rw [h2]; exact hl
        · exact Or.inr ⟨vs, List.mem_cons_of_mem _ h1, h2⟩
      · rcases ih _ _ h with h1 | ⟨vs, h1, h2⟩
        · exact Or.inl h1
        · exact Or.inr ⟨vs, List.mem_cons_of_mem _ h1, h2⟩

theorem scanMin_mem_of_start (d : Entries) (hd : d ≠ []) (k : String) (mv v : Time)
    (h : scanMin d "" mv = some (k, v)) : ∃ vs, (k, vs) ∈ d ∧ vs.getLast? = some v := by
  cases d with
  | nil => exact absurd rfl hd
  | cons e tl =>
    obtain ⟨k0, vs0⟩ := e
    cases hl : vs0.getLast? with
    | none => simp [scanMin, hl] at h
    | some last =>
      simp only [scanMin, hl, true_or, if_true] at h
      rcases scanMin_mem tl k0 k last v h with ⟨h1, h2⟩ | ⟨vs, h1, h2⟩
      · refine ⟨vs0, ?_, ?_⟩
        · rw [h1]; exact List.mem_cons_self _ _
        · rw [h2]; exact hl
      · exact ⟨vs, List.mem_cons_of_mem _ h1, h2⟩

theorem scanMin_le (d : Entries) (hk : "" ∉ keys d) (mk k : String) (hmk : mk ≠ "")
    (mv v : Time) (h : scanMin d mk mv = some (k, v)) :
    v ≤ mv ∧ ∀ e ∈ d, ∀ x, e.2.getLast? = some x → v ≤ x := by
  induction d generalizing mk mv with
  | nil =>
    simp only [scanMin, Option.some.injEq, Prod.mk.injEq] at h
    refine ⟨le_of_eq h.2.symm, ?_⟩
    intro e he
    simp at he
  | cons hd tl ih =>
    obtain ⟨k0, vs0⟩ := hd
    have hk0 : ¬ "" = k0 ∧ "" ∉ keys tl := by
      simpa [keys, not_or] using hk
    have hk1 : k0 ≠ "" := fun h1 => hk0.1 h1.symm
    cases hl : vs0.getLast? with
    | none => simp [scanMin, hl] at h
    | some last =>
      simp only [scanMin, hl, hmk, false_or] at h
      split at h
      · rename_i hlt
        obtain ⟨h1, h2⟩ := ih hk0.2 k0 hk1 last h
        refine ⟨le_trans h1 (le_of_lt hlt), ?_⟩
        intro e he x hx
        simp only [List.mem_cons] at he
        rcases he with he | he
        · subst he
          simp only [hl, Option.some.injEq] at hx
          rw [← hx]; exact h1
        · exact h2 e he x hx
      · rename_i hlt
        obtain ⟨h1, h2⟩ := ih hk0.2 mk hmk mv h
        refine ⟨h1, ?_⟩
        intro e he x hx
        simp only [List.mem_cons] at he
        rcases he with he | he
        · subst he
          simp only [hl, Option.some.injEq] at hx
          rw [← hx]; exact le_trans h1 (not_lt.1 hlt)
        · exact h2 e he x hx

theorem scanMin_le_of_start (d : Entries) (hk : "" ∉ keys d) (k : String) (mv v : Time)
    (h : scanMin d "" mv = some (k, v)) : ∀ e ∈ d, ∀ x, e.2.getLast? = some x → v ≤ x := by
  cases d with
  | nil => intro e he; simp at he
  | cons hd tl =>
    obtain ⟨k0, vs0⟩ := hd
    have hk0 : ¬ "" = k0 ∧ "" ∉ keys tl := by
      simpa [keys, not_or] using hk
    have hk1 : k0 ≠ "" := fun h1 => hk0.1 h1.symm
    cases hl : vs0.getLast? with
    | none => simp [scanMin, hl] at h
    | some last =>
      simp only [scanMin, hl, true_or, if_true] at h
      obtain ⟨h1, h2⟩ := scanMin_le tl hk0.2 k0 k hk1 last v h
      intro e he x hx
      simp only [List.mem_cons] at he
      rcases he with he | he
      · subst he
        simp only [hl, Option.some.injEq] at hx
        rw [← hx]; exact h1
      · exact h2 e he x hx

/-! ## The two loops of `Ping` -/

theorem evictLoop_of_lt (maxEntries fuel : Nat) (d : Entries) (h : d.length < maxEntries) :
    evictLoop maxEntries fuel d = some d := by
  have h1 : ¬ d.length ≥ maxEntries := Nat.not_le.2 h
  cases fuel with
  | zero => simp only [evictLoop, h1, if_false]
  | succ n => simp only [evictLoop, h1, if_false]

theorem evictLoop_zero (fuel : Nat) (d : Entries) : evictLoop 0 fuel d = none := by
  induction fuel generalizing d with
  | zero => simp [evictLoop]
  | succ n ih =>
    simp only [evictLoop, ge_iff_le, Nat.zero_le, if_true]
    cases scanMin d "" 0 with
    | none => rfl
    | some r => exact ih _

theorem trimLoop_eq (maxEntries : Nat) (h : 0 < maxEntries) (s : List Time) :
    trimLoop maxEntries s = some (s.drop (s.length + 1 - maxEntries)) := by
  induction s with
  | nil =>
    have h1 : ¬ 0 ≥ maxEntries := Nat.not_le.2 h
    simp [trimLoop, h1]
  | cons x rest ih =>
    by_cases h1 : (x :: rest).length ≥ maxEntries
    · simp only [trimLoop, h1, if_true, ih]
      have h2 : (x :: rest).length + 1 - maxEntries = (rest.length + 1 - maxEntries) + 1 := by
        simp only [List.length_cons] at h1 ⊢
        omega
      rw [h2, List.drop_succ_cons]
    · simp only [trimLoop, h1, if_false]
      have h2 : (x :: rest).length + 1 - maxEntries = 0 := by
        simp only [List.length_cons] at h1 ⊢
        omega
      rw [h2, List.drop_zero]

/-- What `Ping` stores for the address: the slice after the trim loop, followed by `now`. -/
theorem PingWith_of_lt (maxEntries : Nat) (str : IP → String) (l : Log) (ip : IP) (now : Time)
    (h : l.Data.length < maxEntries) :
    Log.PingWith maxEntries str l ip now =
      some (Log.mk (mapSet l.Data (str ip)
        ((mapGet l.Data (str ip)).drop ((mapGet l.Data (str ip)).length + 1 - maxEntries)
          ++ [now]))) := by
  have h0 : 0 < maxEntries := Nat.lt_of_le_of_lt (Nat.zero_le _) h
  simp only [Log.PingWith, evictLoop_of_lt maxEntries _ l.Data h, trimLoop_eq maxEntries h0]

theorem PingWith_at_cap (maxEntries : Nat) (str : IP → String) (l : Log) (ip : IP) (now : Time)
    (h0 : 0 < maxEntries) (hlen : l.Data.length = maxEntries)
    (hne : ∀ e ∈ l.Data, e.2 ≠ []) :
    ∃ k v vs, scanMin l.Data "" 0 = some (k, v) ∧ (k, vs) ∈ l.Data ∧ vs.getLast? = some v ∧
      Log.PingWith maxEntries str l ip now =
        some (Log.mk (mapSet (mapDelete l.Data k) (str ip)
          ((mapGet (mapDelete l.Data k) (str ip)).drop
            ((mapGet (mapDelete l.Data k) (str ip)).length + 1 - maxEntries) ++ [now]))) := by
  obtain ⟨⟨k, v⟩, hs⟩ := scanMin_isSome l.Data hne "" 0
  have hd : l.Data ≠ [] := by
    intro h1
    rw [h1] at hlen
    simp at hlen
    omega
  obtain ⟨vs, hmem, hlast⟩ := scanMin_mem_of_start l.Data hd k 0 v hs
  refine ⟨k, v, vs, hs, hmem, hlast, ?_⟩
  have hk : k ∈ keys l.Data := mem_keys_of_mem l.Data (k, vs) hmem
  have h1 : (mapDelete l.Data k).length < maxEntries := by
    rw [← hlen]; exact length_mapDelete_lt l.Data k hk
  have h2 : l.Data.length ≥ maxEntries := by rw [hlen]
  simp only [Log.PingWith, evictLoop, h2, if_true, hs,
    evictLoop_of_lt maxEntries _ _ h1, trimLoop_eq maxEntries h0]

/-- The fuel never runs out: with `fuel` passes allowed and fewer than
`maxEntries + fuel` entries, the eviction loop ends with a part of the map that is
under the bound, unless the scan panics on an empty sequence. -/
theorem evictLoop_isSome (maxEntries : Nat) (h0 : 0 < maxEntries) (fuel : Nat) (d : Entries)
    (hne : ∀ e ∈ d, e.2 ≠ []) (hfuel : d.length < maxEntries + fuel) :
    ∃ d1, evictLoop maxEntries fuel d = some d1 ∧ d1.Sublist d ∧ d1.length < maxEntries := by
  induction fuel generalizing d with
  | zero => exact ⟨d, evictLoop_of_lt maxEntries 0 d hfuel, List.Sublist.refl _, hfuel⟩
  | succ n ih =>
    rcases Nat.lt_or_ge d.length maxEntries with h | h
    · exact ⟨d, evictLoop_of_lt maxEntries _ d h, List.Sublist.refl _, h⟩
    · have hd : d ≠ [] := by
        intro h1
        rw [h1] at h
        simp at h
        omega
      obtain ⟨⟨k, v⟩, hs⟩ := scanMin_isSome d hne "" 0
      obtain ⟨vs, hmem, _⟩ := scanMin_mem_of_start d hd k 0 v hs
      have hlt := length_mapDelete_lt d k (mem_keys_of_mem d (k, vs) hmem)
      have hsub := mapDelete_sublist d k
      obtain ⟨d1, h1, h2, h3⟩ := ih (mapDelete d k) (fun e he => hne e (hsub.subset he))
        (by omega)
      refine ⟨d1, ?_, h2.trans hsub, h3⟩
      simp only [evictLoop, h, if_true, hs, h1]

/-- On every log whose sequences are non-empty, whatever its size, `Ping` returns. -/
theorem PingWith_isSome (maxEntries : Nat) (str : IP → String) (l : Log) (ip : IP) (now : Time)
    (h0 : 0 < maxEntries) (hne : ∀ e ∈ l.Data, e.2 ≠ []) :
    ∃ l1, Log.PingWith maxEntries str l ip now = some l1 := by
  obtain ⟨d1, h1, _, _⟩ :=
    evictLoop_isSome maxEntries h0 (l.Data.length + 1) l.Data hne (by omega)
  simp only [Log.PingWith, h1, trimLoop_eq maxEntries h0]
  exact ⟨_, rfl⟩

theorem PingWith_zero (str : IP → String) (l : Log) (ip : IP) (now : Time) :
    Log.PingWith 0 str l ip now = none := by
  simp only [Log.PingWith, evictLoop_zero]

/-- On a log within the bounds whose sequences are non-empty, `Ping` returns: it
stores the trimmed sequence followed by `now` into what the eviction loop left,
which is a part of the old map with fewer than `maxEntries` entries. -/
theorem PingWith_shape (maxEntries : Nat) (str : IP → String) (l : Log) (ip : IP) (now : Time)
    (h0 : 0 < maxEntries) (hlen : l.Data.length ≤ maxEntries) (hne : ∀ e ∈ l.Data, e.2 ≠ []) :
    ∃ d1 : Entries, d1.Sublist l.Data ∧ d1.length < maxEntries ∧
      Log.PingWith maxEntries str l ip now =
        some (Log.mk (mapSet d1 (str ip)
          ((mapGet d1 (str ip)).drop ((mapGet d1 (str ip)).length + 1 - maxEntries)
            ++ [now]))) := by
  rcases Nat.lt_or_ge l.Data.length maxEntries with h | h
  · exact ⟨l.Data, List.Sublist.refl _, h, PingWith_of_lt maxEntries str l ip now h⟩
  · have hlen1 : l.Data.length = maxEntries := Nat.le_antisymm hlen h
    obtain ⟨k, v, vs, _, hmem, _, hp⟩ := PingWith_at_cap maxEntries str l ip now h0 hlen1 hne
    refine ⟨mapDelete l.Data k, mapDelete_sublist _ _, ?_, hp⟩
    rw [← hlen1]
    exact length_mapDelete_lt l.Data k (mem_keys_of_mem l.Data (k, vs) hmem)

/-- One `Ping` keeps the invariant of the log. -/
theorem PingWith_inv (maxEntries : Nat) (str : IP → String) (l l1 : Log) (ip : IP) (now : Time)
    (hnd : (keys l.Data).Nodup) (hlen : l.Data.length ≤ maxEntries)
    (hb : ∀ e ∈ l.Data, e.2 ≠ [] ∧ e.2.length ≤ maxEntries)
    (h : Log.PingWith maxEntries str l ip now = some l1) :
    (keys l1.Data).Nodup ∧ l1.Data.length ≤ maxEntries ∧
      ∀ e ∈ l1.Data, e.2 ≠ [] ∧ e.2.length ≤ maxEntries := by
  rcases Nat.eq_zero_or_pos maxEntries with h0 | h0
  · subst h0
    rw [PingWith_zero] at h
    exact absurd h (by simp)
  · obtain ⟨d1, hsub, hlt, hp⟩ :=
      PingWith_shape maxEntries str l ip now h0 hlen (fun e he => (hb e he).1)
    rw [hp] at h
    have h1 : l1 = Log.mk (mapSet d1 (str ip)
          ((mapGet d1 (str ip)).drop ((mapGet d1 (str ip)).length + 1 - maxEntries)
            ++ [now])) := (Option.some.inj h).symm
    subst h1
    refine ⟨?_, ?_, ?_⟩
    · exact nodup_keys_mapSet d1 _ _ (List.Nodup.sublist (hsub.map Prod.fst) hnd)
    · show (mapSet d1 _ _).length ≤ maxEntries
      rw [length_mapSet]
      split <;> omega
    · intro e he
      rcases mem_mapSet d1 _ _ e he with h2 | h2
      · subst h2
        refine ⟨by simp, ?_⟩
        simp only [List.length_append, List.length_drop, List.length_singleton]
        omega
      · exact hb e (hsub.subset h2)

/-- Every state of a run satisfies the invariant of the log. -/
theorem Run_inv (maxEntries : Nat) (str : IP → String) (calls : List (IP × Time)) (l : Log)
    (h : Run maxEntries str calls l) :
    (keys l.Data).Nodup ∧ l.Data.length ≤ maxEntries ∧
      ∀ e ∈ l.Data, e.2 ≠ [] ∧ e.2.length ≤ maxEntries := by
  induction h with
  | init => simp [keys]
  | ping ip now _ hp ih => exact PingWith_inv maxEntries str _ _ ip now ih.1 ih.2.1 ih.2.2 hp
  | reorder _ hperm ih =>
    refine ⟨?_, ?_, ?_⟩
    · exact (hperm.map Prod.fst).nodup_iff.1 ih.1
    · show _ ≤ maxEntries
      rw [← hperm.length_eq]; exact ih.2.1
    · intro e he
      exact ih.2.2 e (hperm.mem_iff.2 he)

theorem mapDelete_of_not_mem (d : Entries) (k : String) (h : k ∉ keys d) : mapDelete d k = d := by
  induction d with
  | nil => rfl
  | cons hd tl ih =>
    obtain ⟨k2, v2⟩ := hd
    have h0 : ¬ k = k2 ∧ k ∉ keys tl := by
      simpa [keys, not_or] using h
    have h1 : ¬ k2 = k := fun h2 => h0.1 h2.symm
    simp only [mapDelete, h1, if_false, ih h0.2]

theorem length_mapDelete_eq (d : Entries) (k : String) (hnd : (keys d).Nodup) (h : k ∈ keys d) :
    (mapDelete d k).length + 1 = d.length := by
  induction d with
  | nil => simp [keys] at h
  | cons hd tl ih =>
    obtain ⟨k2, v2⟩ := hd
    have h0 : k2 ∉ keys tl ∧ (keys tl).Nodup := by
      simpa [keys, List.nodup_cons] using hnd
    by_cases h1 : k2 = k
    · subst h1
      simp only [mapDelete, if_true, mapDelete_of_not_mem tl k2 h0.1, List.length_cons]
    · have h2 : k ∈ keys tl := by
        simp only [keys, List.map_cons, List.mem_cons] at h
        rcases h with h | h
        · exact absurd h.symm h1
        · exact h
      simp only [mapDelete, h1, if_false, List.length_cons, ih h0.2 h2]

theorem trim_append (maxEntries : Nat) (s : List Time) (now : Time)
    (hs : s.length ≤ maxEntries) :
    s.drop (s.length + 1 - maxEntries) ++ [now] =
      if s.length < maxEntries then s ++ [now] else s.tail ++ [now] := by
  by_cases h : s.length < maxEntries
  · have h1 : s.length + 1 - maxEntries = 0 := by omega
    simp only [h, if_true, h1, List.drop_zero]
  · have h1 : s.length + 1 - maxEntries = 1 := by omega
    simp only [h, if_false, h1, List.drop_one]

theorem length_mapGet_le (maxEntries : Nat) (d : Entries) (k : String)
    (hseq : ∀ e ∈ d, e.2.length ≤ maxEntries) : (mapGet d k).length ≤ maxEntries := by
  by_cases h : k ∈ keys d
  · exact hseq _ (mem_of_mem_keys d k h)
  · rw [mapGet_of_not_mem d k h]; exact Nat.zero_le _

/-! ## The log `fullLog` at capacity -/

set_option maxRecDepth 1000000 in
theorem lastOctet_ipv4String :
    ∀ i ∈ List.range LOG_MAX_ENTRIES, lastOctet (ipv4String [10, 0, 0, i]) = i := by
  decide!

theorem keys_fullLog :
    keys fullLog.Data = (List.range LOG_MAX_ENTRIES).map (fun i => ipv4String [10, 0, 0, i]) := by
  simp only [keys, fullLog, List.map_map]
  rfl

theorem nodup_keys_fullLog : (keys fullLog.Data).Nodup := by
  rw [keys_fullLog]
  refine List.Nodup.map_on ?_ (List.nodup_range _)
  intro i hi j hj h
  have h1 := congrArg lastOctet h
  rwa [lastOctet_ipv4String i hi, lastOctet_ipv4String j hj] at h1

theorem length_fullLog : fullLog.Data.length = LOG_MAX_ENTRIES := by
  simp [fullLog]

theorem nonempty_fullLog : ∀ e ∈ fullLog.Data, e.2 ≠ [] := by
  intro e he
  simp only [fullLog, List.mem_map] at he
  obtain ⟨i, _, rfl⟩ := he
  simp

theorem short_fullLog : ∀ e ∈ fullLog.Data, e.2.length ≤ LOG_MAX_ENTRIES := by
  intro e he
  simp only [fullLog, List.mem_map] at he
  obtain ⟨i, _, rfl⟩ := he
  simp [LOG_MAX_ENTRIES]

set_option maxRecDepth 1000000 in
theorem scanMin_fullLog : scanMin fullLog.Data "" 0 = some ("10.0.0.0", 0) := by
  decide!

set_option maxRecDepth 1000000 in
theorem noEmptyKey_fullLog : "" ∉ keys fullLog.Data := by
  decide!

set_option maxRecDepth 1000000 in
theorem newAddress_fullLog : ipv4String [10, 0, 0, 200] ∉ keys fullLog.Data := by
  decide!

set_option maxRecDepth 1000000 in
theorem oldAddress_fullLog : ipv4String [10, 0, 0, 5] ∈ keys fullLog.Data := by
  decide!

theorem timesOf_length_le (str : IP → String) (k : String) (calls : List (IP × Time)) :
    (timesOf str k calls).length ≤ calls.length := by
  simp only [timesOf, List.length_map]
  exact List.length_filter_le _ _

theorem card_calledKeys_twoEachCalls :
    (calledKeys ipv4String twoEachCalls).toFinset.card = LOG_MAX_ENTRIES := by
  have h1 : (calledKeys ipv4String twoEachCalls).toFinset = (keys fullLog.Data).toFinset := by
    ext k
    simp only [List.mem_toFinset, keys_fullLog, calledKeys, twoEachCalls, List.mem_map,
      List.mem_flatMap, List.mem_range]
    constructor
    · rintro ⟨c, ⟨i, hi, hc⟩, rfl⟩
      refine ⟨i, hi, ?_⟩
      simp only [pairCalls, List.mem_cons, List.mem_singleton, List.not_mem_nil, or_false] at hc
      rcases hc with hc | hc
      · rw [hc]
      · rw [hc]
    · rintro ⟨i, hi, rfl⟩
      exact ⟨([10, 0, 0, i], ((2 * i : Nat) : Time)), ⟨i, hi, List.mem_cons_self _ _⟩, rfl⟩
  rw [h1, List.toFinset_card_of_nodup nodup_keys_fullLog]
  simp [keys, length_fullLog]

theorem exists_of_map_eq_some {α β : Type} (f : α → β) (o : Option α) (b : β)
    (h : o.map f = some b) : ∃ a, o = some a ∧ f a = b := by
  cases o with
  | none => simp at h
  | some a => exact ⟨a, rfl, by simpa using h⟩

set_option maxRecDepth 1000000 in
theorem pings_oneAddressCalls :
    (pings LOG_MAX_ENTRIES ipv4String { Data := [] } oneAddressCalls).map
      (fun l => (mapGet l.Data "10.0.0.1").length) = some LOG_MAX_ENTRIES := by
  decide!

set_option maxRecDepth 1000000 in
theorem length_timesOf_oneAddressCalls :
    (timesOf ipv4String "10.0.0.1" oneAddressCalls).length = LOG_MAX_ENTRIES + 1 := by
  decide!

theorem key_injective (i j : Nat) (hi : i < LOG_MAX_ENTRIES) (hj : j < LOG_MAX_ENTRIES)
    (h : ipv4String [10, 0, 0, i] = ipv4String [10, 0, 0, j]) : i = j := by
  have h1 := congrArg lastOctet h
  rwa [lastOctet_ipv4String i (List.mem_range.2 hi),
    lastOctet_ipv4String j (List.mem_range.2 hj)] at h1

theorem key_not_mem_twice (n : Nat) (hn : n < LOG_MAX_ENTRIES) :
    ipv4String [10, 0, 0, n] ∉ keys ((List.range n).map twiceEntry) := by
  simp only [keys, List.map_map, List.mem_map, List.mem_range, Function.comp, twiceEntry]
  rintro ⟨i, hi, h⟩
  have h1 := key_injective i n (Nat.lt_trans hi hn) hn h
  omega

theorem mapSet_of_not_mem (d : Entries) (k : String) (v : List Time) (h : k ∉ keys d) :
    mapSet d k v = d ++ [(k, v)] := by
  induction d with
  | nil => rfl
  | cons hd tl ih =>
    obtain ⟨k2, v2⟩ := hd
    have h0 : ¬ k = k2 ∧ k ∉ keys tl := by
      simpa [keys, not_or] using h
    have h1 : ¬ k2 = k := fun h2 => h0.1 h2.symm
    simp only [mapSet, h1, if_false, ih h0.2, List.cons_append]

theorem mapSet_append_self (d : Entries) (k : String) (v v1 : List Time) (h : k ∉ keys d) :
    mapSet (d ++ [(k, v)]) k v1 = d ++ [(k, v1)] := by
  induction d with
  | nil => simp [mapSet]
  | cons hd tl ih =>
    obtain ⟨k2, v2⟩ := hd
    have h0 : ¬ k = k2 ∧ k ∉ keys tl := by
      simpa [keys, not_or] using h
    have h1 : ¬ k2 = k := fun h2 => h0.1 h2.symm
    rw [List.cons_append, mapSet, if_neg h1, ih h0.2]
    rfl

theorem mapGet_append_self (d : Entries) (k : String) (v : List Time) (h : k ∉ keys d) :
    mapGet (d ++ [(k, v)]) k = v := by
  induction d with
  | nil => simp [mapGet]
  | cons hd tl ih =>
    obtain ⟨k2, v2⟩ := hd
    have h0 : ¬ k = k2 ∧ k ∉ keys tl := by
      simpa [keys, not_or] using h
    have h1 : ¬ k2 = k := fun h2 => h0.1 h2.symm
    rw [List.cons_append, mapGet, if_neg h1, ih h0.2]

theorem pings_append (maxEntries : Nat) (str : IP → String) (l : Log)
    (cs cs1 : List (IP × Time)) :
    pings maxEntries str l (cs ++ cs1) =
      (pings maxEntries str l cs).bind (fun l1 => pings maxEntries str l1 cs1) := by
  induction cs generalizing l with
  | nil => rfl
  | cons c rest ih =>
    obtain ⟨ip, now⟩ := c
    simp only [List.cons_append, pings]
    cases Log.PingWith maxEntries str l ip now with
    | none => rfl
    | some l1 => exact ih l1

/-- The two calls for a new address below capacity add its entry at the end. -/
theorem pings_pairCalls (d : Entries) (n : Nat) (hlen : d.length + 1 < LOG_MAX_ENTRIES)
    (hnew : ipv4String [10, 0, 0, n] ∉ keys d) :
    pings LOG_MAX_ENTRIES ipv4String { Data := d } (pairCalls n) =
      some { Data := d ++ [twiceEntry n] } := by
  have h1 : d.length < LOG_MAX_ENTRIES := by omega
  have h2 : (d ++ [(ipv4String [10, 0, 0, n], [((2 * n : Nat) : Time)])]).length
      < LOG_MAX_ENTRIES := by
    simp only [List.length_append, List.length_singleton]; exact hlen
  have h3 : (1 : Nat) + 1 - LOG_MAX_ENTRIES = 0 := by decide
  simp only [pairCalls, pings, PingWith_of_lt LOG_MAX_ENTRIES ipv4String _ _ _ h1,
    mapGet_of_not_mem d _ hnew, List.drop_nil, List.nil_append, mapSet_of_not_mem d _ _ hnew,
    PingWith_of_lt LOG_MAX_ENTRIES ipv4String _ _ _ h2, mapGet_append_self d _ _ hnew,
    List.length_singleton, h3, List.drop_zero, mapSet_append_self d _ _ _ hnew, twiceEntry,
    List.singleton_append]

theorem pings_pairs (n : Nat) (hn : n < LOG_MAX_ENTRIES) :
    pings LOG_MAX_ENTRIES ipv4String { Data := [] } ((List.range n).flatMap pairCalls) =
      some { Data := (List.range n).map twiceEntry } := by
  induction n with
  | zero => rfl
  | succ m ih =>
    have hm : m < LOG_MAX_ENTRIES := Nat.lt_of_succ_lt hn
    rw [List.range_succ, List.flatMap_append, pings_append, ih hm]
    simp only [List.flatMap_singleton, Option.some_bind, List.map_append, List.map_singleton]
    refine pings_pairCalls _ m ?_ (key_not_mem_twice m hm)
    simpa using hn

theorem keys_nearlyDone : keys nearlyDone.Data = keys fullLog.Data := by
  have h : (199 : Nat) + 1 = LOG_MAX_ENTRIES := rfl
  rw [keys_fullLog, ← h, List.range_succ]
  simp [keys, nearlyDone, twiceEntry, List.map_map, Function.comp]

set_option maxRecDepth 1000000 in
theorem scanMin_nearlyDone : scanMin nearlyDone.Data "" 0 = some ("10.0.0.0", 1) := by
  decide!

/-- Run of `twoEachCalls`: the last call finds the log at capacity and evicts
10.0.0.0, so one address fewer than the bound is left. -/
theorem pings_twoEachCalls :
    ∃ l, pings LOG_MAX_ENTRIES ipv4String { Data := [] } twoEachCalls = some l ∧
      l.Data.length = LOG_MAX_ENTRIES - 1 := by
  have h199 : (199 : Nat) < LOG_MAX_ENTRIES := by decide
  have hsplit : twoEachCalls = (List.range 199).flatMap pairCalls ++
      ([([10, 0, 0, 199], 398)] ++ [([10, 0, 0, 199], 399)]) := by
    have h : LOG_MAX_ENTRIES = 199 + 1 := rfl
    rw [twoEachCalls, h, List.range_succ, List.flatMap_append]
    rfl
  have hnew := key_not_mem_twice 199 h199
  have hlen : ((List.range 199).map twiceEntry).length < LOG_MAX_ENTRIES := by
    simp only [List.length_map, List.length_range]; exact h199
  have hstep1 : pings LOG_MAX_ENTRIES ipv4String { Data := (List.range 199).map twiceEntry }
      [([10, 0, 0, 199], 398)] = some nearlyDone := by
    have h1 := PingWith_of_lt LOG_MAX_ENTRIES ipv4String
      { Data := (List.range 199).map twiceEntry } [10, 0, 0, 199] 398 hlen
    rw [mapGet_of_not_mem _ _ hnew, List.drop_nil, List.nil_append,
      mapSet_of_not_mem _ _ _ hnew] at h1
    simp only [pings, h1]
    rfl
  have hfull : nearlyDone.Data.length = LOG_MAX_ENTRIES := by
    simp [nearlyDone, LOG_MAX_ENTRIES]
  have hne : ∀ e ∈ nearlyDone.Data, e.2 ≠ [] := by
    intro e he
    simp only [nearlyDone, List.mem_append, List.mem_map, List.mem_singleton] at he
    rcases he with ⟨i, _, rfl⟩ | rfl
    · simp [twiceEntry]
    · simp
  have hnd : (keys nearlyDone.Data).Nodup := by
    rw [keys_nearlyDone]; exact nodup_keys_fullLog
  obtain ⟨k, v, vs, hs, hmem, _, hp⟩ :=
    PingWith_at_cap LOG_MAX_ENTRIES ipv4String nearlyDone [10, 0, 0, 199] 399 (by decide)
      hfull hne
  rw [scanMin_nearlyDone] at hs
  have hk : k = "10.0.0.0" := (congrArg Prod.fst (Option.some.inj hs)).symm
  subst hk
  have hkmem : "10.0.0.0" ∈ keys nearlyDone.Data := mem_keys_of_mem _ _ hmem
  have hin : ipv4String [10, 0, 0, 199] ∈ keys (mapDelete nearlyDone.Data "10.0.0.0") := by
    rw [mem_keys_mapDelete]
    refine ⟨?_, by decide⟩
    simp [keys, nearlyDone]
  cases hres : Log.PingWith LOG_MAX_ENTRIES ipv4String nearlyDone [10, 0, 0, 199] 399 with
  | none =>
    rw [hres] at hp
    exact absurd hp (by simp)
  | some l1 =>
    rw [hres] at hp
    have hl1 := Option.some.inj hp
    refine ⟨l1, ?_, ?_⟩
    · rw [hsplit, pings_append, pings_pairs 199 h199, Option.some_bind, pings_append, hstep1,
        Option.some_bind]
      simp only [pings, hres]
    · rw [hl1]
      show (mapSet _ _ _).length = _
      rw [length_mapSet, if_pos hin]
      have h1 := length_mapDelete_eq nearlyDone.Data "10.0.0.0" hnd hkmem
      rw [hfull] at h1
      omega

/-- The keys that a run puts into the log are texts printed for some address, so
the empty text, which the eviction scan uses as its mark for "no candidate yet",
is never a key when `str` never prints it (and `net.IP.String` never does). -/
theorem Run_no_empty_key (maxEntries : Nat) (str : IP → String) (hstr : ∀ ip, str ip ≠ "")
    (calls : List (IP × Time)) (l : Log) (h : Run maxEntries str calls l) :
    "" ∉ keys l.Data := by
  induction h with
  | init => simp [keys]
  | @ping calls l l1 ip now hr hp ih =>
    rcases Nat.eq_zero_or_pos maxEntries with h0 | h0
    · subst h0
      rw [PingWith_zero] at hp
      exact absurd hp (by simp)
    · obtain ⟨_, h2, h3⟩ := Run_inv maxEntries str calls l hr
      obtain ⟨d1, hsub, _, hq⟩ :=
        PingWith_shape maxEntries str l ip now h0 h2 (fun e he => (h3 e he).1)
      rw [hq] at hp
      have hl1 := (Option.some.inj hp).symm
      subst hl1
      show "" ∉ keys (mapSet _ _ _)
      rw [mem_keys_mapSet]
      rintro (h4 | h4)
      · exact ih ((hsub.map Prod.fst).subset h4)
      · exact hstr ip h4.symm
  | reorder _ hperm ih =>
    intro h1
    exact ih ((hperm.map Prod.fst).mem_iff.2 h1)

/-! ## The claims about `Ping` -/

/-- C1: In every log reachable from the empty log by `Ping` calls (any addresses,
any timestamps, any iteration order of the map), the addresses are distinct and at
most `maxEntries` many, and every address has at most `maxEntries` observations.
The program is the case `maxEntries = LOG_MAX_ENTRIES`. -/
theorem Ping_bound_invariant (maxEntries : Nat) (str : IP → String) (l : Log)
    (h : Reachable maxEntries str l) :
    (keys l.Data).Nodup ∧ l.Data.length ≤ maxEntries ∧
      (keys l.Data).toFinset.card ≤ maxEntries ∧
      ∀ e ∈ l.Data, e.2.length ≤ maxEntries := by
  obtain ⟨calls, hr⟩ := h
  obtain ⟨h1, h2, h3⟩ := Run_inv maxEntries str calls l hr
  refine ⟨h1, h2, ?_, fun e he => (h3 e he).2⟩
  rw [List.toFinset_card_of_nodup h1]
  simpa [keys] using h2

/-- C10: On every reachable log every address present has a non-empty sequence, so
its last element exists; when the log is at capacity the eviction scan returns an
address that is present, deleting it brings the map under the bound (the eviction
loop ends), and `Ping` returns a log for every address and timestamp. -/
theorem Ping_never_fails (maxEntries : Nat) (str : IP → String) (l : Log)
    (h0 : 0 < maxEntries) (h : Reachable maxEntries str l) :
    (∀ e ∈ l.Data, e.2 ≠ [] ∧ ∃ last, e.2.getLast? = some last) ∧
      (maxEntries ≤ l.Data.length → ∃ k v, scanMin l.Data "" 0 = some (k, v) ∧
        k ∈ keys l.Data ∧ (mapDelete l.Data k).length < maxEntries) ∧
      ∀ ip now, ∃ l1, Log.PingWith maxEntries str l ip now = some l1 := by
  obtain ⟨calls, hr⟩ := h
  obtain ⟨_, h2, h3⟩ := Run_inv maxEntries str calls l hr
  have hne : ∀ e ∈ l.Data, e.2 ≠ [] := fun e he => (h3 e he).1
  refine ⟨?_, ?_, ?_⟩
  · intro e he
    refine ⟨hne e he, ?_⟩
    cases hl : e.2.getLast? with
    | none => exact absurd (List.getLast?_eq_none_iff.1 hl) (hne e he)
    | some last => exact ⟨last, rfl⟩
  · intro hge
    have hlen1 : l.Data.length = maxEntries := Nat.le_antisymm h2 hge
    obtain ⟨k, v, vs, hs, hmem, _, _⟩ := PingWith_at_cap maxEntries str l [] 0 h0 hlen1 hne
    have hk : k ∈ keys l.Data := mem_keys_of_mem l.Data (k, vs) hmem
    refine ⟨k, v, hs, hk, ?_⟩
    rw [← hlen1]
    exact length_mapDelete_lt l.Data k hk
  · intro ip now
    obtain ⟨d1, _, _, hp⟩ := PingWith_shape maxEntries str l ip now h0 h2 hne
    exact ⟨_, hp⟩

/-- C2: When the log holds `maxEntries` distinct addresses, each with a non-empty
sequence, and `Ping` is called for an address that is not in the log, `Ping`
returns and the address it removed has a most recent (last) observation that is
less than or equal to the most recent observation of every address in the log.
The keys of the log are addresses, texts printed by `net.IP.String`, which are
never the empty text. -/
theorem Ping_evicts_least_recent (maxEntries : Nat) (str : IP → String) (l : Log) (ip : IP)
    (now : Time) (h0 : 0 < maxEntries) (_hnd : (keys l.Data).Nodup)
    (hlen : l.Data.length = maxEntries) (hne : ∀ e ∈ l.Data, e.2 ≠ [])
    (haddr : "" ∉ keys l.Data) (hnew : str ip ∉ keys l.Data) :
    ∃ l1 k vs last, Log.PingWith maxEntries str l ip now = some l1 ∧
      (k, vs) ∈ l.Data ∧ vs.getLast? = some last ∧ k ∉ keys l1.Data ∧
      (∀ e ∈ l.Data, e.1 ≠ k → e.1 ∈ keys l1.Data) ∧
      ∀ e ∈ l.Data, ∀ x, e.2.getLast? = some x → last ≤ x := by
  obtain ⟨k, v, vs, hs, hmem, hlast, hp⟩ := PingWith_at_cap maxEntries str l ip now h0 hlen hne
  refine ⟨_, k, vs, v, hp, hmem, hlast, ?_, ?_, ?_⟩
  · show k ∉ keys (mapSet _ _ _)
    rw [mem_keys_mapSet, mem_keys_mapDelete]
    rintro (⟨_, h1⟩ | h1)
    · exact h1 rfl
    · exact hnew (h1 ▸ mem_keys_of_mem l.Data (k, vs) hmem)
  · intro e he hk
    show e.1 ∈ keys (mapSet _ _ _)
    rw [mem_keys_mapSet, mem_keys_mapDelete]
    exact Or.inl ⟨mem_keys_of_mem l.Data e he, hk⟩
  · exact scanMin_le_of_start l.Data haddr k 0 v hs

/-- C8: When the log holds exactly `maxEntries` distinct addresses, each with a
non-empty sequence, and `Ping` is called for an address not in the log, then
exactly one previously present address is gone, every other previously present
address keeps exactly its sequence, and the new address has the one-element
sequence `[now]`.  With `maxEntries = 2`, recording A at 1, B at 2 and C at 3
leaves B with `[2]` and C with `[3]`. -/
theorem Ping_eviction_frame (maxEntries : Nat) (str : IP → String) (l : Log) (ip : IP)
    (now : Time) (h0 : 0 < maxEntries) (hnd : (keys l.Data).Nodup)
    (hlen : l.Data.length = maxEntries) (hne : ∀ e ∈ l.Data, e.2 ≠ [])
    (hnew : str ip ∉ keys l.Data) :
    (∃ l1 k, Log.PingWith maxEntries str l ip now = some l1 ∧
      k ∈ keys l.Data ∧ k ∉ keys l1.Data ∧
      (∀ k1, k1 ∈ keys l1.Data ↔ (k1 ∈ keys l.Data ∧ k1 ≠ k) ∨ k1 = str ip) ∧
      (∀ k1 ∈ keys l.Data, k1 ≠ k → mapGet l1.Data k1 = mapGet l.Data k1) ∧
      mapGet l1.Data (str ip) = [now] ∧
      (keys l1.Data).Nodup ∧ l1.Data.length = maxEntries) ∧
    pings 2 ipv4String { Data := [] }
        [([10, 0, 0, 1], 1), ([10, 0, 0, 2], 2), ([10, 0, 0, 3], 3)] =
      some { Data := [("10.0.0.2", [2]), ("10.0.0.3", [3])] } := by
  refine ⟨?_, by decide⟩
  obtain ⟨k, v, vs, _, hmem, _, hp⟩ := PingWith_at_cap maxEntries str l ip now h0 hlen hne
  have hk : k ∈ keys l.Data := mem_keys_of_mem l.Data (k, vs) hmem
  have hkne : str ip ≠ k := fun h1 => hnew (h1 ▸ hk)
  have hnew1 : str ip ∉ keys (mapDelete l.Data k) := by
    rw [mem_keys_mapDelete]; exact fun h1 => hnew h1.1
  refine ⟨_, k, hp, hk, ?_, ?_, ?_, ?_, ?_, ?_⟩
  · show k ∉ keys (mapSet _ _ _)
    rw [mem_keys_mapSet, mem_keys_mapDelete]
    rintro (⟨_, h1⟩ | h1)
    · exact h1 rfl
    · exact hkne h1.symm
  · intro k1
    show k1 ∈ keys (mapSet _ _ _) ↔ _
    rw [mem_keys_mapSet, mem_keys_mapDelete]
  · intro k1 hk1 hne1
    show mapGet (mapSet _ _ _) k1 = _
    have h2 : k1 ≠ str ip := fun h3 => hnew (h3 ▸ hk1)
    rw [mapGet_mapSet, if_neg h2, mapGet_mapDelete, if_neg hne1]
  · show mapGet (mapSet _ _ _) (str ip) = _
    rw [mapGet_mapSet, if_pos rfl, mapGet_of_not_mem _ _ hnew1]
    simp
  · exact nodup_keys_mapSet _ _ _ (nodup_keys_mapDelete l.Data k hnd)
  · show (mapSet _ _ _).length = maxEntries
    rw [length_mapSet, if_neg hnew1, length_mapDelete_eq l.Data k hnd hk, hlen]

/-- C3, amended: When the log holds `maxEntries` distinct addresses, each with a
non-empty sequence, and `Ping` is called for an address that is already present,
`Ping` still evicts the address `k` that the eviction scan returns: the addresses
after the call are those before the call without `k`, together with the recorded
address, and every address other than `k` and the recorded one keeps its
sequence. -/
theorem Ping_at_capacity_present (maxEntries : Nat) (str : IP → String) (l : Log) (ip : IP)
    (now : Time) (h0 : 0 < maxEntries) (_hnd : (keys l.Data).Nodup)
    (hlen : l.Data.length = maxEntries) (hne : ∀ e ∈ l.Data, e.2 ≠ [])
    (_hold : str ip ∈ keys l.Data) :
    ∃ l1 k v, scanMin l.Data "" 0 = some (k, v) ∧ k ∈ keys l.Data ∧
      Log.PingWith maxEntries str l ip now = some l1 ∧
      (∀ k1, k1 ∈ keys l1.Data ↔ (k1 ∈ keys l.Data ∧ k1 ≠ k) ∨ k1 = str ip) ∧
      ∀ k1, k1 ≠ k → k1 ≠ str ip → mapGet l1.Data k1 = mapGet l.Data k1 := by
  obtain ⟨k, v, vs, hs, hmem, _, hp⟩ := PingWith_at_cap maxEntries str l ip now h0 hlen hne
  have hk : k ∈ keys l.Data := mem_keys_of_mem l.Data (k, vs) hmem
  refine ⟨_, k, v, hs, hk, hp, ?_, ?_⟩
  · intro k1
    show k1 ∈ keys (mapSet _ _ _) ↔ _
    rw [mem_keys_mapSet, mem_keys_mapDelete]
  · intro k1 h1 h2
    show mapGet (mapSet _ _ _) k1 = _
    rw [mapGet_mapSet, if_neg h2, mapGet_mapDelete, if_neg h1]

/-- C4, amended: On a log within the bounds, when the eviction scan does not remove
the recorded address itself (so whenever the log holds fewer than `maxEntries`
addresses, and whenever the scan at capacity returns another address), the
sequence of the address after `Ping` is its prior sequence `s` followed by `now`
when `len(s) < maxEntries`, and `s` without its first element followed by `now`
when `len(s) = maxEntries`.  With depth bound 3, recording A at 1, 2, 3, 4, 5
leaves exactly `[3, 4, 5]`. -/
theorem Ping_fifo (maxEntries : Nat) (str : IP → String) (l : Log) (ip : IP) (now : Time)
    (h0 : 0 < maxEntries) (_hnd : (keys l.Data).Nodup) (hlen : l.Data.length ≤ maxEntries)
    (hseq : ∀ e ∈ l.Data, e.2.length ≤ maxEntries)
    (hkeep : l.Data.length < maxEntries ∨
      ((∀ e ∈ l.Data, e.2 ≠ []) ∧ ∀ v, scanMin l.Data "" 0 ≠ some (str ip, v))) :
    (∃ l1, Log.PingWith maxEntries str l ip now = some l1 ∧
      mapGet l1.Data (str ip) =
        if (mapGet l.Data (str ip)).length < maxEntries then mapGet l.Data (str ip) ++ [now]
        else (mapGet l.Data (str ip)).tail ++ [now]) ∧
    pings 3 ipv4String { Data := [] }
        [([10, 0, 0, 1], 1), ([10, 0, 0, 1], 2), ([10, 0, 0, 1], 3), ([10, 0, 0, 1], 4),
          ([10, 0, 0, 1], 5)] =
      some { Data := [("10.0.0.1", [3, 4, 5])] } := by
  refine ⟨?_, by decide⟩
  have hs := length_mapGet_le maxEntries l.Data (str ip) hseq
  rcases Nat.lt_or_ge l.Data.length maxEntries with h | h
  · refine ⟨_, PingWith_of_lt maxEntries str l ip now h, ?_⟩
    show mapGet (mapSet _ _ _) (str ip) = _
    rw [mapGet_mapSet, if_pos rfl, trim_append maxEntries _ now hs]
  · have hlen1 : l.Data.length = maxEntries := Nat.le_antisymm hlen h
    rcases hkeep with h1 | ⟨hne, hother⟩
    · exact absurd h1 (Nat.not_lt.2 h)
    · obtain ⟨k, v, vs, hsc, _, _, hp⟩ :=
        PingWith_at_cap maxEntries str l ip now h0 hlen1 hne
      have hk : str ip ≠ k := by
        intro h2
        apply hother v
        rw [hsc, h2]
      refine ⟨_, hp, ?_⟩
      show mapGet (mapSet _ _ _) (str ip) = _
      rw [mapGet_mapSet, if_pos rfl, mapGet_mapDelete, if_neg hk,
        trim_append maxEntries _ now hs]

/-! ## Runs below capacity -/

theorem calledKeys_append (str : IP → String) (calls : List (IP × Time)) (ip : IP) (now : Time) :
    calledKeys str (calls ++ [(ip, now)]) = calledKeys str calls ++ [str ip] := by
  simp [calledKeys]

theorem timesOf_append (str : IP → String) (k : String) (calls : List (IP × Time)) (ip : IP)
    (now : Time) :
    timesOf str k (calls ++ [(ip, now)]) =
      timesOf str k calls ++ (if str ip = k then [now] else []) := by
  by_cases h : str ip = k
  · simp [timesOf, List.filter_append, h, List.filter_cons]
  · simp [timesOf, List.filter_append, h, List.filter_cons]

/-- While fewer than `maxEntries` addresses have been recorded and none more than
`maxEntries` times, the log holds exactly the recorded addresses, each with the
timestamps of its calls in call order. -/
theorem Run_below_capacity (maxEntries : Nat) (str : IP → String) (calls : List (IP × Time))
    (l : Log) (h : Run maxEntries str calls l) :
    (calledKeys str calls).toFinset.card < maxEntries →
    (∀ k, (timesOf str k calls).length ≤ maxEntries) →
    (keys l.Data).Nodup ∧ (∀ k, k ∈ keys l.Data ↔ k ∈ calledKeys str calls) ∧
      ∀ k, mapGet l.Data k = timesOf str k calls := by
  induction h with
  | init =>
    intro _ _
    simp [keys, calledKeys, mapGet, timesOf]
  | @ping calls l l1 ip now _ hp ih =>
    intro hN hM
    have hsub : (calledKeys str calls).toFinset ⊆
        (calledKeys str (calls ++ [(ip, now)])).toFinset := by
      intro k hk
      rw [calledKeys_append]
      simp only [List.mem_toFinset, List.mem_append] at hk ⊢
      exact Or.inl hk
    have hN1 : (calledKeys str calls).toFinset.card < maxEntries :=
      Nat.lt_of_le_of_lt (Finset.card_le_card hsub) hN
    have hM1 : ∀ k, (timesOf str k calls).length ≤ maxEntries := by
      intro k
      have h1 := hM k
      rw [timesOf_append, List.length_append] at h1
      omega
    obtain ⟨hnd, hkeys, hget⟩ := ih hN1 hM1
    have hlen : l.Data.length < maxEntries := by
      have h1 : (keys l.Data).toFinset = (calledKeys str calls).toFinset := by
        ext k
        simp only [List.mem_toFinset]
        exact hkeys k
      have h2 : (keys l.Data).toFinset.card = l.Data.length := by
        rw [List.toFinset_card_of_nodup hnd]
        simp [keys]
      rw [← h2, h1]
      exact hN1
    rw [PingWith_of_lt maxEntries str l ip now hlen] at hp
    have hl1 := (Option.some.inj hp).symm
    subst hl1
    have hdrop : (mapGet l.Data (str ip)).length + 1 - maxEntries = 0 := by
      have h1 := hM (str ip)
      rw [timesOf_append, List.length_append, if_pos rfl, ← hget] at h1
      simp only [List.length_singleton] at h1
      omega
    refine ⟨nodup_keys_mapSet _ _ _ hnd, ?_, ?_⟩
    · intro k
      show k ∈ keys (mapSet _ _ _) ↔ _
      rw [mem_keys_mapSet, calledKeys_append, List.mem_append, List.mem_singleton, hkeys]
    · intro k
      show mapGet (mapSet _ _ _) k = _
      rw [mapGet_mapSet, timesOf_append, hdrop, List.drop_zero]
      by_cases h1 : k = str ip
      · subst h1
        rw [if_pos rfl, if_pos rfl, hget]
      · have h2 : ¬ str ip = k := fun h3 => h1 h3.symm
        rw [if_neg h1, if_neg h2, List.append_nil, hget]
  | @reorder calls l d _ hperm ih =>
    intro hN hM
    obtain ⟨hnd, hkeys, hget⟩ := ih hN hM
    have hk : (keys l.Data).Perm (keys d) := hperm.map Prod.fst
    refine ⟨hk.nodup_iff.1 hnd, ?_, ?_⟩
    · intro k
      show k ∈ keys d ↔ _
      rw [← hk.mem_iff]; exact hkeys k
    · intro k
      show mapGet d k = _
      rw [← mapGet_perm l.Data d k hnd hperm]; exact hget k

/-- Every sequence of calls has a run: no `Ping` of a run fails. -/
theorem Run_exists (maxEntries : Nat) (str : IP → String) (h0 : 0 < maxEntries)
    (calls : List (IP × Time)) : ∃ l, Run maxEntries str calls l := by
  induction calls using List.reverseRecOn with
  | nil => exact ⟨_, Run.init⟩
  | append_singleton cs c ih =>
    obtain ⟨l, hl⟩ := ih
    obtain ⟨ip, now⟩ := c
    obtain ⟨_, h2, h3⟩ := Run_inv maxEntries str cs l hl
    obtain ⟨d1, _, _, hp⟩ :=
      PingWith_shape maxEntries str l ip now h0 h2 (fun e he => (h3 e he).1)
    exact ⟨_, Run.ping ip now hl hp⟩

/-- C9, amended: When the calls are made for fewer than `maxEntries` distinct
addresses and at most `maxEntries` times for each, then in whatever order the
mutex serialises them, starting from the empty log, the calls run to the end, the
final number of distinct addresses equals the number of addresses called, and
every address holds exactly the timestamps of the calls made for it, in call
order, so as many observations as calls. -/
theorem Ping_no_lost_updates (maxEntries : Nat) (str : IP → String)
    (calls : List (IP × Time))
    (hN : (calledKeys str calls).toFinset.card < maxEntries)
    (hM : ∀ k, (timesOf str k calls).length ≤ maxEntries) :
    (∃ l, Run maxEntries str calls l) ∧
      ∀ l, Run maxEntries str calls l →
        (keys l.Data).Nodup ∧
        l.Data.length = (calledKeys str calls).toFinset.card ∧
        (∀ k, k ∈ keys l.Data ↔ k ∈ calledKeys str calls) ∧
        ∀ k, mapGet l.Data k = timesOf str k calls ∧
          (mapGet l.Data k).length = (timesOf str k calls).length := by
  have h0 : 0 < maxEntries := Nat.lt_of_le_of_lt (Nat.zero_le _) hN
  refine ⟨Run_exists maxEntries str h0 calls, ?_⟩
  intro l hl
  obtain ⟨hnd, hkeys, hget⟩ := Run_below_capacity maxEntries str calls l hl hN hM
  refine ⟨hnd, ?_, hkeys, fun k => ⟨hget k, by rw [hget k]⟩⟩
  have h1 : (keys l.Data).toFinset = (calledKeys str calls).toFinset := by
    ext k
    simp only [List.mem_toFinset]
    exact hkeys k
  rw [← h1, List.toFinset_card_of_nodup hnd]
  simp [keys]

/-! ## The packet callback -/

set_option maxRecDepth 100000 in
theorem high_nibble (b : Nat) (hb : b < 256) :
    (b &&& 0xf0 = 0x40 ↔ b / 16 = 4) ∧ (b &&& 0xf0 = 0x60 ↔ b / 16 = 6) := by
  have h : ∀ x : Fin 256, (x.val &&& 0xf0 = 0x40 ↔ x.val / 16 = 4) ∧
      (x.val &&& 0xf0 = 0x60 ↔ x.val / 16 = 6) := by decide
  exact h ⟨b, hb⟩

/-- C7: For every payload of bytes, absent or present, the callback does what the
extractor of the specification says: it leaves the log unchanged when the payload
is absent, shorter than 24 bytes, or has a high nibble in byte 0 other than 4 and
6; it calls `Ping` with exactly bytes [12,16) when the nibble is 4 and with exactly
bytes [8,24) when it is 6.  No index or slice expression is out of range: the
callback fails only if `Ping` itself does. -/
theorem fn_source_address (maxEntries : Nat) (str : IP → String) (l : Log)
    (Payload : Option (List Nat)) (now : Time)
    (hbyte : ∀ p, Payload = some p → ∀ b ∈ p, b < 256) :
    fn maxEntries str l Payload now =
      match sourceAddress Payload with
      | none => some (l, 0)
      | some ip => (Log.PingWith maxEntries str l ip now).map (fun l1 => (l1, 0)) := by
  cases Payload with
  | none => rfl
  | some p =>
    by_cases hlen : p.length < 24
    · simp [fn, sourceAddress, hlen]
    · cases p with
      | nil => simp at hlen
      | cons b0 rest =>
        have hb0 : b0 < 256 := hbyte _ rfl b0 (List.mem_cons_self _ _)
        obtain ⟨h4, h6⟩ := high_nibble b0 hb0
        have hlen1 : ¬ rest.length + 1 < 24 := by
          simpa only [List.length_cons] using hlen
        have hs1 : slice (b0 :: rest) 12 16 = some (((b0 :: rest).drop 12).take 4) := by
          have : 15 ≤ rest.length := by
            simp only [List.length_cons] at hlen
            omega
          simp [slice, this]
        have hs2 : slice (b0 :: rest) 8 24 = some (((b0 :: rest).drop 8).take 16) := by
          have : 23 ≤ rest.length := by
            simp only [List.length_cons] at hlen
            omega
          simp [slice, this]
        by_cases c4 : b0 / 16 = 4
        · have c4a := h4.2 c4
          simp [fn, sourceAddress, hlen1, c4a, hs1, c4]
        · have c4a : ¬ b0 &&& 0xf0 = 0x40 := fun h => c4 (h4.1 h)
          by_cases c6 : b0 / 16 = 6
          · have c6a := h6.2 c6
            simp [fn, sourceAddress, hlen1, c6a, hs2, c6]
          · have c6a : ¬ b0 &&& 0xf0 = 0x60 := fun h => c6 (h6.1 h)
            simp [fn, sourceAddress, hlen1, c4a, c6a, c4, c6]

/-! ## Serialisation -/

/-- C5: Evaluation of the code at a log with one address: whatever the encoder
writes and whatever the decoder answers, after `ReadFrom` of the bytes of
`WriteTo` the log is empty and the address `10.0.0.1` with its observation is
gone. -/
theorem ReadFrom_WriteTo_loses_log (Encode : Log → List Nat × Option String)
    (Decode : List Nat → Option String) (prior : Log) :
    (Log.ReadFrom Decode prior
        (Log.WriteTo Encode { Data := [("10.0.0.1", [1])] }).1).1.Data = [] ∧
      mapGet (Log.ReadFrom Decode prior
        (Log.WriteTo Encode { Data := [("10.0.0.1", [1])] }).1).1.Data "10.0.0.1" = [] ∧
      mapGet [("10.0.0.1", [1])] "10.0.0.1" = [1] := by
  refine ⟨rfl, rfl, by decide⟩

/-- C6, amended: When decoding fails, `ReadFrom` returns the decoder's error to
the caller, and the prior mapping is discarded before decoding begins: the mapping
after the call is the same whatever the mapping before the call was, so no address
or sequence of the prior state is kept because it was there before. -/
theorem ReadFrom_failure (Decode : List Nat → Option String) (l : Log) (r : List Nat)
    (err : String) (hfail : Decode r = some err) :
    (Log.ReadFrom Decode l r).2 = some err ∧
      ∀ prior : Log, (Log.ReadFrom Decode prior r).1.Data = (Log.ReadFrom Decode l r).1.Data := by
  exact ⟨hfail, fun _ => rfl⟩

/-! ## Instances at the constant of the program -/

/-- The invariant of C1 at the log reached by one `Ping` with the bound of the program. -/
theorem Ping_bound_invariant_witness :
    Reachable LOG_MAX_ENTRIES ipv4String { Data := [("10.0.0.1", [1])] } ∧
      (keys [("10.0.0.1", ([1] : List Time))]).Nodup ∧
      [("10.0.0.1", ([1] : List Time))].length ≤ LOG_MAX_ENTRIES ∧
      (keys [("10.0.0.1", ([1] : List Time))]).toFinset.card ≤ LOG_MAX_ENTRIES ∧
      ∀ e ∈ [("10.0.0.1", ([1] : List Time))], e.2.length ≤ LOG_MAX_ENTRIES :=
  have h : Reachable LOG_MAX_ENTRIES ipv4String { Data := [("10.0.0.1", [1])] } :=
    ⟨_, Run.ping [10, 0, 0, 1] 1 Run.init (by decide)⟩
  ⟨h, Ping_bound_invariant LOG_MAX_ENTRIES ipv4String _ h⟩

/-- The statement of C10 at a log reached by one `Ping` with the bound of the program. -/
theorem Ping_never_fails_witness :
    Reachable LOG_MAX_ENTRIES ipv4String { Data := [("10.0.0.2", [5])] } ∧
      ∀ ip now, ∃ l1, Log.Ping ipv4String { Data := [("10.0.0.2", [5])] } ip now = some l1 :=
  have h : Reachable LOG_MAX_ENTRIES ipv4String { Data := [("10.0.0.2", [5])] } :=
    ⟨_, Run.ping [10, 0, 0, 2] 5 Run.init (by decide)⟩
  ⟨h, (Ping_never_fails LOG_MAX_ENTRIES ipv4String _ (by decide) h).2.2⟩

/-- The statement of C2 at the log `fullLog`, which holds `LOG_MAX_ENTRIES` addresses,
for the new address 10.0.0.200. -/
theorem Ping_evicts_least_recent_witness :
    ∃ l1 k vs last, Log.Ping ipv4String fullLog [10, 0, 0, 200] 1000 = some l1 ∧
      (k, vs) ∈ fullLog.Data ∧ vs.getLast? = some last ∧ k ∉ keys l1.Data ∧
      (∀ e ∈ fullLog.Data, e.1 ≠ k → e.1 ∈ keys l1.Data) ∧
      ∀ e ∈ fullLog.Data, ∀ x, e.2.getLast? = some x → last ≤ x :=
  Ping_evicts_least_recent LOG_MAX_ENTRIES ipv4String fullLog [10, 0, 0, 200] 1000 (by decide)
    nodup_keys_fullLog length_fullLog nonempty_fullLog noEmptyKey_fullLog newAddress_fullLog

/-- The frame statement of C8 at the log `fullLog` for the new address 10.0.0.200. -/
theorem Ping_eviction_frame_witness :
    ∃ l1 k, Log.Ping ipv4String fullLog [10, 0, 0, 200] 77 = some l1 ∧
      k ∈ keys fullLog.Data ∧ k ∉ keys l1.Data ∧
      (∀ k1, k1 ∈ keys l1.Data ↔ (k1 ∈ keys fullLog.Data ∧ k1 ≠ k) ∨
        k1 = ipv4String [10, 0, 0, 200]) ∧
      (∀ k1 ∈ keys fullLog.Data, k1 ≠ k → mapGet l1.Data k1 = mapGet fullLog.Data k1) ∧
      mapGet l1.Data (ipv4String [10, 0, 0, 200]) = [77] ∧
      (keys l1.Data).Nodup ∧ l1.Data.length = LOG_MAX_ENTRIES :=
  (Ping_eviction_frame LOG_MAX_ENTRIES ipv4String fullLog [10, 0, 0, 200] 77 (by decide)
    nodup_keys_fullLog length_fullLog nonempty_fullLog newAddress_fullLog).1

/-- C3 as stated fails: the log `fullLog` holds `LOG_MAX_ENTRIES` distinct addresses
and 10.0.0.5 is one of them, yet `Ping` for 10.0.0.5 removes the address 10.0.0.0. -/
theorem Ping_present_address_counterexample :
    (keys fullLog.Data).Nodup ∧ fullLog.Data.length = LOG_MAX_ENTRIES ∧
      (∀ e ∈ fullLog.Data, e.2 ≠ []) ∧ ipv4String [10, 0, 0, 5] ∈ keys fullLog.Data ∧
      ∃ l1, Log.Ping ipv4String fullLog [10, 0, 0, 5] 1000 = some l1 ∧
        "10.0.0.0" ∈ keys fullLog.Data ∧ "10.0.0.0" ∉ keys l1.Data := by
  refine ⟨nodup_keys_fullLog, length_fullLog, nonempty_fullLog, oldAddress_fullLog, ?_⟩
  obtain ⟨k, v, vs, hs, hmem, _, hp⟩ :=
    PingWith_at_cap LOG_MAX_ENTRIES ipv4String fullLog [10, 0, 0, 5] 1000 (by decide)
      length_fullLog nonempty_fullLog
  rw [scanMin_fullLog] at hs
  have hk : k = "10.0.0.0" := by
    have h1 := Option.some.inj hs
    exact (congrArg Prod.fst h1).symm
  subst hk
  refine ⟨_, hp, mem_keys_of_mem fullLog.Data _ hmem, ?_⟩
  show "10.0.0.0" ∉ keys (mapSet _ _ _)
  rw [mem_keys_mapSet, mem_keys_mapDelete]
  rintro (⟨_, h1⟩ | h1)
  · exact h1 rfl
  · exact absurd h1 (by decide)

/-- The amended statement of C3 at the log `fullLog` for the present address 10.0.0.5. -/
theorem Ping_at_capacity_present_witness :
    ∃ l1 k v, scanMin fullLog.Data "" 0 = some (k, v) ∧ k ∈ keys fullLog.Data ∧
      Log.Ping ipv4String fullLog [10, 0, 0, 5] 1000 = some l1 ∧
      (∀ k1, k1 ∈ keys l1.Data ↔ (k1 ∈ keys fullLog.Data ∧ k1 ≠ k) ∨
        k1 = ipv4String [10, 0, 0, 5]) ∧
      ∀ k1, k1 ≠ k → k1 ≠ ipv4String [10, 0, 0, 5] →
        mapGet l1.Data k1 = mapGet fullLog.Data k1 :=
  Ping_at_capacity_present LOG_MAX_ENTRIES ipv4String fullLog [10, 0, 0, 5] 1000 (by decide)
    nodup_keys_fullLog length_fullLog nonempty_fullLog oldAddress_fullLog

/-- C4 as stated fails: `fullLog` is within the bounds and the address 10.0.0.0 has
the prior sequence `[0]`, of length below the bound, yet after `Ping` for it at
1000 its sequence is `[1000]` and not `[0, 1000]`. -/
theorem Ping_fifo_counterexample :
    (keys fullLog.Data).Nodup ∧ fullLog.Data.length ≤ LOG_MAX_ENTRIES ∧
      (∀ e ∈ fullLog.Data, e.2.length ≤ LOG_MAX_ENTRIES) ∧
      mapGet fullLog.Data (ipv4String [10, 0, 0, 0]) = [0] ∧
      ∃ l1, Log.Ping ipv4String fullLog [10, 0, 0, 0] 1000 = some l1 ∧
        mapGet l1.Data (ipv4String [10, 0, 0, 0]) = [1000] ∧
        mapGet l1.Data (ipv4String [10, 0, 0, 0]) ≠ [0] ++ [1000] := by
  have hkey : ipv4String [10, 0, 0, 0] = "10.0.0.0" := by decide
  have hget : mapGet fullLog.Data (ipv4String [10, 0, 0, 0]) = [0] := by
    have h1 : ("10.0.0.0", ([0] : List Time)) ∈ fullLog.Data := by
      simp only [fullLog, List.mem_map, List.mem_range]
      exact ⟨0, by decide, by rw [hkey]; rfl⟩
    rw [hkey]
    exact mapGet_of_mem fullLog.Data _ _ nodup_keys_fullLog h1
  refine ⟨nodup_keys_fullLog, le_of_eq length_fullLog, short_fullLog, hget, ?_⟩
  obtain ⟨k, v, vs, hs, _, _, hp⟩ :=
    PingWith_at_cap LOG_MAX_ENTRIES ipv4String fullLog [10, 0, 0, 0] 1000 (by decide)
      length_fullLog nonempty_fullLog
  rw [scanMin_fullLog] at hs
  have hk : k = "10.0.0.0" := by
    have h1 := Option.some.inj hs
    exact (congrArg Prod.fst h1).symm
  subst hk
  have hres : mapGet (mapSet (mapDelete fullLog.Data "10.0.0.0") (ipv4String [10, 0, 0, 0])
      ((mapGet (mapDelete fullLog.Data "10.0.0.0") (ipv4String [10, 0, 0, 0])).drop
        ((mapGet (mapDelete fullLog.Data "10.0.0.0") (ipv4String [10, 0, 0, 0])).length + 1
          - LOG_MAX_ENTRIES) ++ [1000])) (ipv4String [10, 0, 0, 0]) = [1000] := by
    rw [mapGet_mapSet, if_pos rfl, mapGet_mapDelete, if_pos hkey]
    rfl
  refine ⟨_, hp, hres, ?_⟩
  rw [hres]
  decide

/-- The amended statement of C4 at a log with one address, below capacity. -/
theorem Ping_fifo_witness :
    ∃ l1, Log.Ping ipv4String { Data := [("10.0.0.1", [1])] } [10, 0, 0, 1] 2 = some l1 ∧
      mapGet l1.Data (ipv4String [10, 0, 0, 1]) =
        if (mapGet [("10.0.0.1", [1])] (ipv4String [10, 0, 0, 1])).length < LOG_MAX_ENTRIES
        then mapGet [("10.0.0.1", [1])] (ipv4String [10, 0, 0, 1]) ++ [2]
        else (mapGet [("10.0.0.1", [1])] (ipv4String [10, 0, 0, 1])).tail ++ [2] :=
  (Ping_fifo LOG_MAX_ENTRIES ipv4String { Data := [("10.0.0.1", [1])] } [10, 0, 0, 1] 2
    (by decide) (by decide) (by decide) (by decide) (Or.inl (by decide))).1

/-- C9 as stated fails in two ways.  One address recorded `LOG_MAX_ENTRIES + 1`
times holds `LOG_MAX_ENTRIES` observations at the end.  And when each of
`LOG_MAX_ENTRIES` distinct addresses is recorded twice, one address after the
other, the final log holds `LOG_MAX_ENTRIES - 1` addresses. -/
theorem Ping_lost_updates_counterexample :
    (∃ l, pings LOG_MAX_ENTRIES ipv4String { Data := [] } oneAddressCalls = some l ∧
      (timesOf ipv4String "10.0.0.1" oneAddressCalls).length = LOG_MAX_ENTRIES + 1 ∧
      (mapGet l.Data "10.0.0.1").length = LOG_MAX_ENTRIES) ∧
    (∃ l, pings LOG_MAX_ENTRIES ipv4String { Data := [] } twoEachCalls = some l ∧
      (calledKeys ipv4String twoEachCalls).toFinset.card = LOG_MAX_ENTRIES ∧
      l.Data.length = LOG_MAX_ENTRIES - 1) :=
  have ⟨l, hl, hlen⟩ := exists_of_map_eq_some _ _ _ pings_oneAddressCalls
  have ⟨m, hm, hmlen⟩ := pings_twoEachCalls
  ⟨⟨l, hl, length_timesOf_oneAddressCalls, hlen⟩,
    ⟨m, hm, card_calledKeys_twoEachCalls, hmlen⟩⟩

/-- The amended statement of C9 for three calls on two addresses: every run ends
with two addresses that hold the timestamps of their calls. -/
theorem Ping_no_lost_updates_witness :
    (∃ l, Run LOG_MAX_ENTRIES ipv4String threeCalls l) ∧
      ∀ l, Run LOG_MAX_ENTRIES ipv4String threeCalls l →
        l.Data.length = 2 ∧ mapGet l.Data "10.0.0.1" = [1, 3] ∧ mapGet l.Data "10.0.0.2" = [2] := by
  have h := Ping_no_lost_updates LOG_MAX_ENTRIES ipv4String threeCalls (by decide)
    (fun k => le_trans (timesOf_length_le ipv4String k threeCalls) (by decide))
  refine ⟨h.1, ?_⟩
  intro l hl
  obtain ⟨_, h2, _, h4⟩ := h.2 l hl
  refine ⟨?_, ?_, ?_⟩
  · rw [h2]; decide
  · rw [(h4 "10.0.0.1").1]; decide
  · rw [(h4 "10.0.0.2").1]; decide

/-- The statement of C7 at a captured IPv4 packet: the callback records 10.0.0.1. -/
theorem fn_source_address_witness :
    fn LOG_MAX_ENTRIES ipv4String { Data := [] } (some ipv4Packet) 7 =
        some ({ Data := [("10.0.0.1", [7])] }, 0) ∧
      sourceAddress (some ipv4Packet) = some [10, 0, 0, 1] := by
  have h := fn_source_address LOG_MAX_ENTRIES ipv4String { Data := [] } (some ipv4Packet) 7
    (by
      intro p hp
      cases hp
      decide)
  have h1 : sourceAddress (some ipv4Packet) = some [10, 0, 0, 1] := by decide
  rw [h1] at h
  refine ⟨?_, h1⟩
  rw [h]
  decide

/-- C6 as stated fails: on the empty input the decoder reports an error, and the
log that held the address 10.0.0.1 before the call no longer holds it after. -/
theorem ReadFrom_failure_counterexample :
    (Log.ReadFrom decodeEOF { Data := [("10.0.0.1", [1])] } []).2 = some "EOF" ∧
      (Log.ReadFrom decodeEOF { Data := [("10.0.0.1", [1])] } []).1.Data ≠
        [("10.0.0.1", [1])] := by
  decide

/-- The amended statement of C6 at a decoder that fails on the empty input. -/
theorem ReadFrom_failure_witness :
    (Log.ReadFrom decodeEOF { Data := [("10.0.0.1", [1])] } []).2 = some "EOF" ∧
      (Log.ReadFrom decodeEOF { Data := [("10.0.0.2", [2])] } []).1.Data =
        (Log.ReadFrom decodeEOF { Data := [("10.0.0.1", [1])] } []).1.Data :=
  have h := ReadFrom_failure decodeEOF { Data := [("10.0.0.1", [1])] } [] "EOF" (by decide)
  ⟨h.1, h.2 { Data := [("10.0.0.2", [2])] }⟩

end Nflogicmp
